import Mathlib

/-!
# Verification of the `file-encryption-rust` core against its specification

Shallow embedding of the repository's crates:

* `core/src/format.rs` — the on-disk container codec
  (`create_encrypted_file` / `parse_encrypted_file`);
* `core/src/crypto.rs` — the `Encryptor` (Argon2id key derivation,
  AES-256-GCM with a 12-byte nonce prepended to the ciphertext);
* `wasm/src/lib.rs` — the programmatic `encrypt_file` / `decrypt_file`
  byte-level entry points;
* `file_encryptor/src/main.rs` — the CLI's output-path policy and the
  directory (batch) encrypt/decrypt loops.

Bytes are modelled as `Nat` (the source's `u8` values, always `< 256` in
well-formed data; none of the verified properties depends on the bound).
Byte buffers (`Vec<u8>` / `&[u8]`) are `List Nat`.

The two external cryptographic primitives (the `argon2` and `aes-gcm`
crates) are not part of this repository.  They are idealised by concrete
computable functions that preserve the structure the repository relies on:
the key derivation is a deterministic 32-byte function of password and
salt, and the AEAD cipher masks the plaintext with a key/nonce-determined
pad and appends a 16-byte tag over (key, nonce, ciphertext); decryption
recomputes and checks the tag and never releases unauthenticated output.
Randomness (`OsRng`) is made explicit: salt and nonce values are
parameters, and batch operations receive the RNG as a stream of draws.
-/

namespace FileEncryption

/-! ## Container format — `core/src/format.rs` -/

/-- The magic bytes `b"ENCR"` = `0x45 0x4E 0x43 0x52`. -/
def magicBytes : List Nat := [0x45, 0x4E, 0x43, 0x52]

/-- `create_encrypted_file` (`format.rs`): magic, version byte `1`, the
salt, then the encrypted data, concatenated in that order. -/
def create_encrypted_file (salt : List Nat) (encrypted_data : List Nat) :
    List Nat :=
  magicBytes ++ 1 :: (salt ++ encrypted_data)

/-- The three failure cases of `parse_encrypted_file` (`anyhow` messages
"too short", "wrong magic bytes", "Unsupported file version"). -/
inductive FormatError where
  | tooShort
  | badMagic
  | unsupportedVersion
  deriving DecidableEq, Repr

/-- `parse_encrypted_file` (`format.rs`): requires length ≥ 37
(4 magic + 1 version + 32 salt), checks the magic bytes and the version
byte `data[4]`, then returns the 32-byte salt `data[5..37]` and the
remaining payload `data[37..]`.  No further validation is performed. -/
def parse_encrypted_file (data : List Nat) :
    Except FormatError (List Nat × List Nat) :=
  if data.length < 37 then .error .tooShort
  else if data.take 4 ≠ magicBytes then .error .badMagic
  else if data.getD 4 0 ≠ 1 then .error .unsupportedVersion
  else .ok ((data.drop 5).take 32, data.drop 37)

/-! ## Idealised external primitives (the `argon2` / `aes-gcm` crates) -/

/-- Model of `Encryptor::derive_key_from_password` (`crypto.rs`): Argon2id
with fixed parameters (m = 65536, t = 3, p = 4) producing a 32-byte key.
The external primitive is idealised as a concrete deterministic byte
function of the password bytes and the salt; the repository only relies on
determinism and the 32-byte output size. -/
def derive_key_from_password (password : List Nat) (salt : List Nat) :
    List Nat :=
  (List.range 32).map fun i =>
    (password ++ salt).foldl (fun a b => (a * 131 + b + 1) % 256) (i + 3)

/-- Idealised AES-256-GCM keystream byte for a given key and nonce (the
model masks every plaintext byte with this pad via XOR). -/
def padByte (key nonce : List Nat) : Nat :=
  (key ++ nonce).foldl (fun a b => (a * 31 + b) % 256) 5

/-- Idealised 16-byte GCM authentication tag over (key, nonce,
ciphertext). -/
def aeadTag (key nonce ct : List Nat) : List Nat :=
  (List.range 16).map fun i =>
    (key ++ nonce ++ ct).foldl (fun a b => (a * 37 + b) % 256) (i + 11)

/-- Idealised `Aes256Gcm::encrypt`: ciphertext of the plaintext's length
followed by the 16-byte tag. -/
def aeadEncrypt (key nonce m : List Nat) : List Nat :=
  let ct := m.map (fun b => b ^^^ padByte key nonce)
  ct ++ aeadTag key nonce ct

/-- Idealised `Aes256Gcm::decrypt`: `none` when the input cannot carry a
tag or the recomputed tag differs (the AEAD failure the source maps to
"Decryption failed"); otherwise the unmasked plaintext.  No partial
output exists on failure. -/
def aeadDecrypt (key nonce data : List Nat) : Option (List Nat) :=
  if data.length < 16 then none
  else
    let ct := data.take (data.length - 16)
    let tag := data.drop (data.length - 16)
    if tag = aeadTag key nonce ct then
      some (ct.map (fun b => b ^^^ padByte key nonce))
    else none

/-! ## `Encryptor` — `core/src/crypto.rs` -/

/-- `Encryptor`: holds the AES-256-GCM cipher, i.e. the derived key. -/
structure Encryptor where
  key : List Nat
  deriving DecidableEq, Repr

/-- `Encryptor::new_with_password`: derives the key and builds the
cipher.  (The source returns `Result`, but with the fixed Argon2
parameters derivation never fails, and the model's primitive is total.) -/
def Encryptor.new_with_password (password : List Nat) (salt : List Nat) :
    Encryptor :=
  ⟨derive_key_from_password password salt⟩

/-- `Encryptor::encrypt`: AEAD-encrypt under a nonce and prepend the
nonce to the ciphertext.  The source draws the 12-byte nonce from
`OsRng`; the model receives it as the explicit `nonce` argument. -/
def Encryptor.encrypt (e : Encryptor) (nonce : List Nat)
    (plaintext : List Nat) : List Nat :=
  nonce ++ aeadEncrypt e.key nonce plaintext

/-- The failure cases of `Encryptor::decrypt` ("Invalid ciphertext: too
short" and "Decryption failed"). -/
inductive DecryptError where
  | invalidInput
  | authenticationFailure
  deriving DecidableEq, Repr

/-- `Encryptor::decrypt`: rejects inputs shorter than 12 bytes, splits
off the 12-byte nonce, and AEAD-decrypts the remainder; an AEAD failure
becomes `authenticationFailure`. -/
def Encryptor.decrypt (e : Encryptor) (ciphertext : List Nat) :
    Except DecryptError (List Nat) :=
  if ciphertext.length < 12 then .error .invalidInput
  else
    match aeadDecrypt e.key (ciphertext.take 12) (ciphertext.drop 12) with
    | some plaintext => .ok plaintext
    | none => .error .authenticationFailure

/-! ## Programmatic surface — `wasm/src/lib.rs` -/

/-- Errors surfaced by the wasm `decrypt_file` (each underlying error is
converted to a `JsError`; the model keeps the structure). -/
inductive FileError where
  | format (e : FormatError)
  | crypto (e : DecryptError)
  deriving DecidableEq, Repr

/-- wasm `encrypt_file`: generate a salt, derive the key, AEAD-encrypt,
wrap in the container.  Salt and nonce (the two `OsRng` draws) are
explicit arguments. -/
def encrypt_file (password salt nonce data : List Nat) : List Nat :=
  let encryptor := Encryptor.new_with_password password salt
  create_encrypted_file salt (encryptor.encrypt nonce data)

/-- wasm `decrypt_file`: parse the container, re-derive the key from the
embedded salt, AEAD-decrypt the payload. -/
def decrypt_file (password file_data : List Nat) :
    Except FileError (List Nat) :=
  match parse_encrypted_file file_data with
  | .error e => .error (.format e)
  | .ok (salt, encrypted_data) =>
    match (Encryptor.new_with_password password salt).decrypt
        encrypted_data with
    | .error e => .error (.crypto e)
    | .ok plaintext => .ok plaintext

/-! ## Rust `Path` extension semantics — used by `file_encryptor/src/main.rs`

The CLI's output names are produced with `Path::extension` and
`Path::set_extension`.  In Rust, the extension of a file name is the part
after the *last* `.`, except that a name with no `.`, or whose only `.`
is the leading character (`".gitignore"`), has no extension; and
`set_extension` *replaces* the current extension (truncating it and its
dot) before appending `"." ++ ext` (or nothing when `ext` is empty). -/

/-- Index of the last `'.'` in a file name, `none` if there is none. -/
def lastDotIdx : List Char → Option Nat
  | [] => none
  | c :: cs =>
    match lastDotIdx cs with
    | some i => some (i + 1)
    | none => if c = '.' then some 0 else none

/-- Rust `Path::extension` on a file name: the part after the last dot,
unless there is no dot or the only dot is the leading character. -/
def pathExtension (f : List Char) : Option (List Char) :=
  match lastDotIdx f with
  | none => none
  | some i => if i = 0 then none else some (f.drop (i + 1))

/-- The stem left once `set_extension` truncates the extension and its
dot (the whole name when there is no extension). -/
def pathStem (f : List Char) : List Char :=
  match lastDotIdx f with
  | none => f
  | some i => if i = 0 then f else f.take i

/-- Rust `Path::set_extension` on a file name: truncate the current
extension, then append `"." ++ e` when `e` is nonempty. -/
def pathSetExtension (f : List Char) (e : List Char) : List Char :=
  if e = [] then pathStem f else pathStem f ++ '.' :: e

/-- String wrapper for `pathExtension`. -/
def extensionOf (f : String) : Option String :=
  (pathExtension f.toList).map (fun l => String.mk l)

/-- String wrapper for `pathSetExtension`. -/
def setExtensionOf (f : String) (e : String) : String :=
  String.mk (pathSetExtension f.toList e.toList)

/-! ## CLI output naming — `file_encryptor/src/main.rs` -/

/-- Default output name of the single-file `encrypt_file` command
(`main.rs`, `path.set_extension("encrypted")`). -/
def encryptFileOutName (f : String) : String :=
  setExtensionOf f "encrypted"

/-- Per-file output name of `encrypt_dir` (`main.rs`): the new extension
is `"<old>.encrypted"` when the file has an extension, plain
`"encrypted"` otherwise. -/
def encryptDirOutName (f : String) : String :=
  let ext := match extensionOf f with
    | some e => e ++ ".encrypted"
    | none => "encrypted"
  setExtensionOf f ext

/-- Output name used by both the single-file `decrypt_file` default and
the per-file naming in `decrypt_dir` (`main.rs`, identical code at both
sites): strip the extension when it is `"encrypted"`, otherwise
`set_extension("decrypted")`. -/
def decryptOutName (f : String) : String :=
  if extensionOf f = some "encrypted" then setExtensionOf f ""
  else setExtensionOf f "decrypted"

/-! ## Batch (directory) processing — `file_encryptor/src/main.rs`

A regular file visited by a batch loop, with the outcomes of its two I/O
steps made explicit: `read` is the result of `FileHandler::read_file`
(`.error ()` = the read fails), and `writeOk` tells whether the
`FileHandler::write_file` of this file's output succeeds.  `OsRng` is a
stream `rng : Nat → List Nat` of draws: draw 0 is `generate_salt`'s
output, and each `Encryptor::encrypt` call consumes the next draw as its
nonce. -/

structure DirFile where
  name : String
  read : Except Unit (List Nat)
  writeOk : Bool
  deriving Repr

/-- A batch input whose I/O never fails (every read succeeds with the
given contents and every write succeeds). -/
def okFiles (files : List (String × List Nat)) : List DirFile :=
  files.map fun p => ⟨p.1, .ok p.2, true⟩

/-- The per-file loop of `encrypt_dir`: the key (in `enc`) and the salt
were fixed before the loop; file number `k` (0-based among processed
files) is encrypted with nonce draw `rng (k + 1)`.  Returns the outputs
written so far; on the first failing read or write the loop stops,
leaving earlier outputs in place and reporting the failing file's name
together with the number of files that succeeded before it. -/
def encrypt_dir_loop (enc : Encryptor) (salt : List Nat)
    (rng : Nat → List Nat) (k : Nat) :
    List DirFile → List (String × List Nat) × Option (String × Nat)
  | [] => ([], none)
  | f :: rest =>
    match f.read with
    | .error _ => ([], some (f.name, k))
    | .ok plaintext =>
      let container :=
        create_encrypted_file salt (enc.encrypt (rng (k + 1)) plaintext)
      if f.writeOk then
        let r := encrypt_dir_loop enc salt rng (k + 1) rest
        ((encryptDirOutName f.name, container) :: r.1, r.2)
      else ([], some (f.name, k))

/-- `encrypt_dir`: draw one salt, derive one key, then run the per-file
loop over every collected file. -/
def encrypt_dir (password : List Nat) (rng : Nat → List Nat)
    (files : List DirFile) :
    List (String × List Nat) × Option (String × Nat) :=
  let salt := rng 0
  let enc := Encryptor.new_with_password password salt
  encrypt_dir_loop enc salt rng 0 files

/-- The filter of `decrypt_dir`: keep only files whose extension is
exactly `encrypted`. -/
def isEncryptedName (f : DirFile) : Bool :=
  extensionOf f.name = some "encrypted"

/-- One file's processing inside `decrypt_dir`: read, parse the
container, derive the key from the password and this file's own embedded
salt, decrypt, write.  `none` when any step fails. -/
def decrypt_step (password : List Nat) (f : DirFile) : Option (List Nat) :=
  match f.read with
  | .error _ => none
  | .ok data =>
    match parse_encrypted_file data with
    | .error _ => none
    | .ok (salt, encrypted_data) =>
      match (Encryptor.new_with_password password salt).decrypt
          encrypted_data with
      | .error _ => none
      | .ok plaintext => if f.writeOk then some plaintext else none

/-- The per-file loop of `decrypt_dir` over the already-filtered list,
with the same fail-fast bookkeeping as `encrypt_dir_loop`. -/
def decrypt_dir_loop (password : List Nat) (k : Nat) :
    List DirFile → List (String × List Nat) × Option (String × Nat)
  | [] => ([], none)
  | f :: rest =>
    match decrypt_step password f with
    | none => ([], some (f.name, k))
    | some plaintext =>
      let r := decrypt_dir_loop password (k + 1) rest
      ((decryptOutName f.name, plaintext) :: r.1, r.2)

/-- `decrypt_dir`: keep only the `.encrypted` files, then run the
per-file loop. -/
def decrypt_dir (password : List Nat) (files : List DirFile) :
    List (String × List Nat) × Option (String × Nat) :=
  decrypt_dir_loop password 0 (files.filter isEncryptedName)

/-! ## Helper lemmas about the primitives -/

/-- The idealised GCM tag is 16 bytes, like the real one. -/
theorem length_aeadTag (key nonce ct : List Nat) :
    (aeadTag key nonce ct).length = 16 := by
  simp [aeadTag]

/-- Masking twice with the same pad is the identity. -/
theorem map_xor_mask_cancel (m : List Nat) (p : Nat) :
    (m.map (fun b => b ^^^ p)).map (fun b => b ^^^ p) = m := by
  rw [List.map_map]
  have h : ((fun b => b ^^^ p) ∘ (fun b => b ^^^ p) : Nat → Nat) = id := by
    funext x; simp [Function.comp, Nat.xor_assoc]
  rw [h, List.map_id]

/-- The AEAD output is 16 bytes (the tag) longer than the plaintext. -/
theorem length_aeadEncrypt (key nonce m : List Nat) :
    (aeadEncrypt key nonce m).length = m.length + 16 := by
  simp [aeadEncrypt, length_aeadTag]

/-- AEAD round trip under matching key and nonce. -/
theorem aeadDecrypt_aeadEncrypt (key nonce m : List Nat) :
    aeadDecrypt key nonce (aeadEncrypt key nonce m) = some m := by
  have hlen := length_aeadEncrypt key nonce m
  have hct : (m.map (fun b => b ^^^ padByte key nonce)).length = m.length := by
    simp
  rw [aeadDecrypt, if_neg (by omega)]
  simp only [hlen, Nat.add_sub_cancel]
  rw [aeadEncrypt]
  rw [List.take_left' hct, List.drop_left' hct, if_pos rfl,
    map_xor_mask_cancel]

/-- `Encryptor` round trip: decrypting one's own encryption (12-byte
nonce) recovers the plaintext. -/
theorem Encryptor.decrypt_encrypt (e : Encryptor) (nonce m : List Nat)
    (hn : nonce.length = 12) :
    e.decrypt (e.encrypt nonce m) = .ok m := by
  have hlen : (e.encrypt nonce m).length = 12 + (m.length + 16) := by
    simp [Encryptor.encrypt, hn, length_aeadEncrypt]
  rw [Encryptor.decrypt, if_neg (by omega), Encryptor.encrypt,
    List.take_left' hn, List.drop_left' hn, aeadDecrypt_aeadEncrypt]

/-- Codec round trip for a 32-byte salt. -/
theorem parse_create (salt payload : List Nat) (hs : salt.length = 32) :
    parse_encrypted_file (create_encrypted_file salt payload) =
      .ok (salt, payload) := by
  have hlen : (create_encrypted_file salt payload).length =
      37 + payload.length := by
    simp [create_encrypted_file, magicBytes]; omega
  rw [parse_encrypted_file, if_neg (by omega)]
  rw [create_encrypted_file, magicBytes]
  simp only [List.cons_append, List.nil_append, List.take, List.getD,
    List.drop]
  rw [if_neg (by simp [magicBytes]), if_neg (by simp), List.take_left' hs]
  rw [List.drop_left' hs]

/-- Codec decode of any encode whose total length reaches 37 bytes:
bytes 5..37 become the salt, no matter how long the supplied salt was. -/
theorem parse_create_general (s p : List Nat)
    (h : 32 ≤ s.length + p.length) :
    parse_encrypted_file (create_encrypted_file s p) =
      .ok ((s ++ p).take 32, (s ++ p).drop 32) := by
  have hlen : (create_encrypted_file s p).length =
      5 + (s.length + p.length) := by
    simp [create_encrypted_file, magicBytes]; omega
  rw [parse_encrypted_file, if_neg (by omega)]
  rw [create_encrypted_file, magicBytes]
  simp only [List.cons_append, List.nil_append, List.take, List.getD,
    List.drop]
  rw [if_neg (by simp [magicBytes]), if_neg (by simp)]

/-! ## Claim theorems: codec and cipher -/

/-- C1: for every password, every 32-byte salt and 12-byte nonce (the
two `OsRng` draws), and every byte sequence, decrypting the container
produced by `encrypt_file` with the same password recovers exactly the
plaintext: `decrypt_file` parses the container, re-derives the key from
the embedded salt, and AEAD-decrypts. -/
theorem wasm_encrypt_decrypt_round_trip (p s n m : List Nat)
    (hs : s.length = 32) (hn : n.length = 12) :
    decrypt_file p (encrypt_file p s n m) = .ok m := by
  simp only [encrypt_file, decrypt_file, parse_create _ _ hs,
    Encryptor.decrypt_encrypt _ _ _ hn]

/-- Witness for C1 at a concrete password, salt, nonce and plaintext. -/
theorem wasm_encrypt_decrypt_round_trip_witness :
    decrypt_file [1, 2]
        (encrypt_file [1, 2] (List.replicate 32 7) (List.replicate 12 9)
          [104, 105]) = .ok [104, 105] :=
  wasm_encrypt_decrypt_round_trip [1, 2] (List.replicate 32 7)
    (List.replicate 12 9) [104, 105] (by decide) (by decide)

/-- C3: `parse_encrypted_file` fails with the too-short error exactly on
inputs shorter than 37 bytes; otherwise with the bad-magic error exactly
when the first four bytes differ from `"ENCR"`; otherwise with the
unsupported-version error exactly when byte 4 is not `1`; and otherwise
succeeds with salt = bytes 5..37 and payload = bytes 37.., with no
further validation (so any input of length ≥ 37 with good magic and
version decodes, including lengths below 65). -/
theorem parse_error_contract (b : List Nat) :
    (parse_encrypted_file b = .error .tooShort ↔ b.length < 37) ∧
    (37 ≤ b.length →
      (parse_encrypted_file b = .error .badMagic ↔ b.take 4 ≠ magicBytes)) ∧
    (37 ≤ b.length → b.take 4 = magicBytes →
      (parse_encrypted_file b = .error .unsupportedVersion ↔
        b.getD 4 0 ≠ 1)) ∧
    (37 ≤ b.length → b.take 4 = magicBytes → b.getD 4 0 = 1 →
      parse_encrypted_file b = .ok ((b.drop 5).take 32, b.drop 37)) := by
  rw [parse_encrypted_file]
  split_ifs with h1 h2 h3 <;> simp_all

/-- Witness for C3: a 37-byte input (well below the 65-byte minimum of a
real container) decodes successfully with an empty payload. -/
theorem parse_error_contract_witness :
    parse_encrypted_file (magicBytes ++ 1 :: List.replicate 32 0) =
      .ok (List.replicate 32 0, []) :=
  ((parse_error_contract (magicBytes ++ 1 :: List.replicate 32 0)).2.2.2
    (by decide) (by decide) (by decide)).trans rfl

/-- C4: `Encryptor::decrypt` fails with the invalid-input error exactly
on inputs shorter than 12 bytes; on longer inputs it treats bytes 0..12
as the nonce and the rest as ciphertext-plus-tag, failing with the
authentication error exactly when the AEAD rejects (tag does not
verify), and succeeding exactly when the AEAD accepts — an `error`
result carries no plaintext bytes at all. -/
theorem decrypt_error_contract (e : Encryptor) (b : List Nat) :
    (e.decrypt b = .error .invalidInput ↔ b.length < 12) ∧
    (12 ≤ b.length →
      (e.decrypt b = .error .authenticationFailure ↔
        aeadDecrypt e.key (b.take 12) (b.drop 12) = none)) ∧
    (∀ pt, e.decrypt b = .ok pt ↔
      12 ≤ b.length ∧ aeadDecrypt e.key (b.take 12) (b.drop 12) = some pt) := by
  by_cases h : b.length < 12
  · simp [Encryptor.decrypt, h]
  · rcases ha : aeadDecrypt e.key (b.take 12) (b.drop 12) with _ | pt
    · simp [Encryptor.decrypt, h, ha]
    · simp [Encryptor.decrypt, h, ha]
      omega

/-- Witness for C4: the empty input is rejected as too short. -/
theorem decrypt_error_contract_witness :
    Encryptor.decrypt ⟨[]⟩ [] = .error .invalidInput :=
  (decrypt_error_contract ⟨[]⟩ []).1.mpr (by decide)

/-- C5: `create_encrypted_file` returns exactly
`0x45 0x4E 0x43 0x52 ‖ 0x01 ‖ salt ‖ payload` with the payload copied
verbatim; with a 32-byte salt the first five bytes are `45 4E 43 52 01`
and the total length is `4 + 1 + 32 + len(payload)`. -/
theorem create_layout (s p : List Nat) :
    create_encrypted_file s p = [0x45, 0x4E, 0x43, 0x52, 1] ++ (s ++ p) ∧
    (s.length = 32 →
      (create_encrypted_file s p).take 5 = [0x45, 0x4E, 0x43, 0x52, 1] ∧
      (create_encrypted_file s p).length = 4 + 1 + 32 + p.length) := by
  constructor
  · simp [create_encrypted_file, magicBytes]
  · intro hs
    refine ⟨rfl, ?_⟩
    simp [create_encrypted_file, magicBytes, hs]; omega

/-- Witness for C5 at a concrete 32-byte salt and 1-byte payload. -/
theorem create_layout_witness :
    (create_encrypted_file (List.replicate 32 0) [5]).take 5 =
      [0x45, 0x4E, 0x43, 0x52, 1] ∧
    (create_encrypted_file (List.replicate 32 0) [5]).length =
      4 + 1 + 32 + [5].length :=
  (create_layout (List.replicate 32 0) [5]).2 (by decide)

/-- C10: `create_encrypted_file` never validates the salt length — the
output always has `5 + len(salt) + len(payload)` bytes — and the codec
round trip holds exactly under the 32-byte-salt precondition: with a
32-byte salt decode returns the inputs, while for any other salt length
(and total length ≥ 37) decode returns the fixed 5..37/37.. split, whose
salt differs from the supplied one. -/
theorem codec_salt_validation (s p : List Nat) :
    (create_encrypted_file s p).length = 5 + s.length + p.length ∧
    (s.length = 32 →
      parse_encrypted_file (create_encrypted_file s p) = .ok (s, p)) ∧
    (s.length ≠ 32 → 37 ≤ (create_encrypted_file s p).length →
      parse_encrypted_file (create_encrypted_file s p) =
        .ok ((s ++ p).take 32, (s ++ p).drop 32) ∧
      (s ++ p).take 32 ≠ s) := by
  refine ⟨?_, fun hs => parse_create s p hs, fun hs hlen => ?_⟩
  · simp [create_encrypted_file, magicBytes]; omega
  · have hl : (create_encrypted_file s p).length =
        5 + (s.length + p.length) := by
      simp [create_encrypted_file, magicBytes]; omega
    have h32 : 32 ≤ s.length + p.length := by omega
    refine ⟨parse_create_general s p h32, fun heq => hs ?_⟩
    have hlt := congrArg List.length heq
    simp [List.length_take] at hlt
    omega

/-- Witness for C10: a 2-byte salt round-trips to a different split. -/
theorem codec_salt_validation_witness :
    parse_encrypted_file (create_encrypted_file [1, 2]
        (List.replicate 35 9)) =
      .ok (([1, 2] ++ List.replicate 35 9).take 32,
        ([1, 2] ++ List.replicate 35 9).drop 32) ∧
    ([1, 2] ++ List.replicate 35 9).take 32 ≠ [1, 2] :=
  (codec_salt_validation [1, 2] (List.replicate 35 9)).2.2 (by decide)
    (by decide)

/-! ## Helper lemmas about Rust path-extension semantics -/

/-- A name without a dot has no last dot. -/
theorem lastDotIdx_of_no_dot (l : List Char) (h : '.' ∉ l) :
    lastDotIdx l = none := by
  induction l with
  | nil => rfl
  | cons c cs ih =>
    have hc : ¬c = '.' := fun hc => h (hc ▸ List.mem_cons_self c cs)
    have hcs : '.' ∉ cs := fun hm => h (List.mem_cons_of_mem c hm)
    rw [lastDotIdx, ih hcs, if_neg hc]

/-- The last dot of `s ++ "." ++ e`, with `e` dot-free, sits right after
`s`. -/
theorem lastDotIdx_append_dot (s e : List Char) (he : '.' ∉ e) :
    lastDotIdx (s ++ '.' :: e) = some s.length := by
  induction s with
  | nil => rw [List.nil_append, lastDotIdx, lastDotIdx_of_no_dot e he]; rfl
  | cons c s' ih => rw [List.cons_append, lastDotIdx, ih]; rfl

/-- `Path::extension` of `s ++ "." ++ e` (nonempty `s`, dot-free `e`) is
`e`. -/
theorem pathExtension_append (s e : List Char) (hs : s ≠ [])
    (he : '.' ∉ e) : pathExtension (s ++ '.' :: e) = some e := by
  have hlen : s.length ≠ 0 := fun h0 => hs (List.length_eq_zero.mp h0)
  have hsplit : s ++ '.' :: e = (s ++ ['.']) ++ e := by simp
  simp only [pathExtension, lastDotIdx_append_dot s e he]
  rw [if_neg hlen, hsplit, List.drop_left' (by simp)]

/-- Truncating the extension of `s ++ "." ++ e` leaves `s`. -/
theorem pathStem_append (s e : List Char) (hs : s ≠ [])
    (he : '.' ∉ e) : pathStem (s ++ '.' :: e) = s := by
  have hlen : s.length ≠ 0 := fun h0 => hs (List.length_eq_zero.mp h0)
  simp only [pathStem, lastDotIdx_append_dot s e he]
  rw [if_neg hlen, List.take_left]

/-- A dot-free name has no extension. -/
theorem pathExtension_no_dot (f : List Char) (h : '.' ∉ f) :
    pathExtension f = none := by
  simp only [pathExtension, lastDotIdx_of_no_dot f h]

/-- A dot-free name is its own stem. -/
theorem pathStem_no_dot (f : List Char) (h : '.' ∉ f) :
    pathStem f = f := by
  simp only [pathStem, lastDotIdx_of_no_dot f h]

/-! ## Claim theorems: output naming -/

/-- C2 (divergence witness): the single-file encrypt default output for
`report.txt` is `report.encrypted` — `Path::set_extension` *replaces*
the final extension — so decrypting it yields `report`, losing the
original `.txt`; the extension-less `README` and the directory-encrypt
path behave as the spec describes. -/
theorem extension_policy_divergence :
    encryptFileOutName "report.txt" = "report.encrypted" ∧
    decryptOutName (encryptFileOutName "report.txt") = "report" ∧
    encryptFileOutName "README" = "README.encrypted" ∧
    decryptOutName "README.encrypted" = "README" ∧
    encryptDirOutName "report.txt" = "report.txt.encrypted" ∧
    decryptOutName "report.txt.encrypted" = "report.txt" := by decide

/-- C9 (counterexample): decrypting `foo.txt` defaults to
`foo.decrypted`, not the claimed `foo.txt.decrypted`. -/
theorem decrypt_out_name_counterexample :
    decryptOutName "foo.txt" = "foo.decrypted" ∧
    decryptOutName "foo.txt" ≠ "foo.txt.decrypted" := by decide

/-- C9 (amended): when the final extension (dot-free `e` after a
nonempty stem `s`) is not `encrypted`, the decrypt output name replaces
that extension with `decrypted`; a `.encrypted` final extension is
stripped, restoring the stem; and a dot-free name gets `.decrypted`
appended. -/
theorem decrypt_out_name_amended (s e : List Char) (hs : s ≠ [])
    (he : '.' ∉ e) :
    (e ≠ "encrypted".toList →
      decryptOutName (String.mk (s ++ '.' :: e)) =
        String.mk (s ++ '.' :: "decrypted".toList)) ∧
    (e = "encrypted".toList →
      decryptOutName (String.mk (s ++ '.' :: e)) = String.mk s) ∧
    ('.' ∉ s →
      decryptOutName (String.mk s) =
        String.mk (s ++ '.' :: "decrypted".toList)) := by
  have htl : ∀ l : List Char, (String.mk l).toList = l := fun l => rfl
  have hempty : ("".toList : List Char) = [] := rfl
  refine ⟨fun hne => ?_, fun heq => ?_, fun hnd => ?_⟩
  · have hcond : extensionOf (String.mk (s ++ '.' :: e)) ≠
        some "encrypted" := by
      rw [extensionOf, htl, pathExtension_append s e hs he]
      intro hx
      have hmk : String.mk e = "encrypted" := by simpa using hx
      exact hne (congrArg String.toList hmk)
    rw [decryptOutName, if_neg hcond, setExtensionOf, htl,
      pathSetExtension, if_neg (by decide), pathStem_append s e hs he]
  · have hcond : extensionOf (String.mk (s ++ '.' :: e)) =
        some "encrypted" := by
      rw [extensionOf, htl, pathExtension_append s e hs he, heq]
      rfl
    rw [decryptOutName, if_pos hcond, setExtensionOf, htl,
      pathSetExtension, if_pos hempty, pathStem_append s e hs he]
  · have hcond : extensionOf (String.mk s) ≠ some "encrypted" := by
      rw [extensionOf, htl, pathExtension_no_dot s hnd]
      simp
    rw [decryptOutName, if_neg hcond, setExtensionOf, htl,
      pathSetExtension, if_neg (by decide), pathStem_no_dot s hnd]

/-- Witness for the amended C9 at the name `report.txt.encrypted`. -/
theorem decrypt_out_name_amended_witness :
    decryptOutName "report.txt.encrypted" = "report.txt" :=
  (decrypt_out_name_amended ("report.txt".toList) ("encrypted".toList)
    (by decide) (by decide)).2.1 rfl

/-! ## Helper lemmas about the batch loops -/

/-- Unfolding one all-success step of the `encrypt_dir` loop. -/
theorem encrypt_dir_loop_cons_ok (enc : Encryptor) (salt : List Nat)
    (rng : Nat → List Nat) (k : Nat) (name : String) (content : List Nat)
    (rest : List DirFile) :
    encrypt_dir_loop enc salt rng k (⟨name, .ok content, true⟩ :: rest) =
      ((encryptDirOutName name,
        create_encrypted_file salt (enc.encrypt (rng (k + 1)) content)) ::
          (encrypt_dir_loop enc salt rng (k + 1) rest).1,
        (encrypt_dir_loop enc salt rng (k + 1) rest).2) := rfl

/-- A batch whose I/O always succeeds reports no failure. -/
theorem encrypt_dir_loop_ok_err (enc : Encryptor) (salt : List Nat)
    (rng : Nat → List Nat) (k : Nat) (fs : List (String × List Nat)) :
    (encrypt_dir_loop enc salt rng k (okFiles fs)).2 = none := by
  induction fs generalizing k with
  | nil => rfl
  | cons f rest ih =>
    rcases f with ⟨name, content⟩
    show (encrypt_dir_loop enc salt rng k
      (⟨name, .ok content, true⟩ :: okFiles rest)).2 = none
    rw [encrypt_dir_loop_cons_ok]
    exact ih (k + 1)

/-- In an all-success batch starting at counter `k`, file number `i` is
written under its rewritten name as the container of its contents under
nonce draw `rng (k + i + 1)` and the loop's fixed salt. -/
theorem encrypt_dir_loop_ok_get (enc : Encryptor) (salt : List Nat)
    (rng : Nat → List Nat) (k : Nat) (fs : List (String × List Nat))
    (i : Nat) (name : String) (content : List Nat)
    (hf : fs.get? i = some (name, content)) :
    (encrypt_dir_loop enc salt rng k (okFiles fs)).1.get? i =
      some (encryptDirOutName name,
        create_encrypted_file salt
          (enc.encrypt (rng (k + i + 1)) content)) := by
  induction fs generalizing k i with
  | nil => simp at hf
  | cons f rest ih =>
    rcases f with ⟨n, c⟩
    show (encrypt_dir_loop enc salt rng k
      (⟨n, .ok c, true⟩ :: okFiles rest)).1.get? i =
      some (encryptDirOutName name,
        create_encrypted_file salt (enc.encrypt (rng (k + i + 1)) content))
    rw [encrypt_dir_loop_cons_ok]
    cases i with
    | zero =>
      simp only [List.get?] at hf
      obtain ⟨rfl, rfl⟩ : n = name ∧ c = content := by
        simpa [Prod.ext_iff] using hf
      rfl
    | succ j =>
      simp only [List.get?] at hf ⊢
      have h := ih (k + 1) j hf
      rw [show k + 1 + j + 1 = k + (j + 1) + 1 by omega] at h
      exact h

/-- In a `decrypt_dir` loop that reports no failure, every selected file
produced an output: its own `decrypt_step` succeeded and its plaintext
sits at the same index in the output list. -/
theorem decrypt_dir_loop_ok_get (password : List Nat) (k : Nat)
    (sel : List DirFile)
    (hok : (decrypt_dir_loop password k sel).2 = none) :
    (decrypt_dir_loop password k sel).1.length = sel.length ∧
    ∀ i f, sel.get? i = some f →
      ∃ pt, decrypt_step password f = some pt ∧
        (decrypt_dir_loop password k sel).1.get? i =
          some (decryptOutName f.name, pt) := by
  induction sel generalizing k with
  | nil =>
    refine ⟨rfl, fun i f hf => ?_⟩
    simp at hf
  | cons f rest ih =>
    cases hstep : decrypt_step password f with
    | none =>
      rw [decrypt_dir_loop, hstep] at hok
      exact absurd hok (by simp)
    | some pt =>
      simp only [decrypt_dir_loop, hstep] at hok ⊢
      obtain ⟨hlen, hget⟩ := ih (k + 1) hok
      refine ⟨by simp [hlen], fun i g hg => ?_⟩
      cases i with
      | zero =>
        obtain rfl : f = g := by simpa using hg
        exact ⟨pt, hstep, rfl⟩
      | succ j =>
        simp only [List.get?] at hg ⊢
        exact hget j g hg

/-- Fail-fast shape of the `encrypt_dir` loop: a clean front, then a
file whose read or write fails, stops the loop with the front's outputs
kept and the failing file's name and position reported. -/
theorem encrypt_dir_loop_append_fail (enc : Encryptor) (salt : List Nat)
    (rng : Nat → List Nat) (k : Nat) (front rest : List DirFile)
    (f : DirFile) (outs : List (String × List Nat))
    (hfront : encrypt_dir_loop enc salt rng k front = (outs, none))
    (hf : f.read = .error () ∨ f.writeOk = false) :
    encrypt_dir_loop enc salt rng k (front ++ f :: rest) =
      (outs, some (f.name, k + front.length)) := by
  induction front generalizing k outs with
  | nil =>
    obtain rfl : outs = [] := by
      simpa [encrypt_dir_loop, Prod.ext_iff] using hfront.symm
    rw [List.nil_append]
    rcases hf with hread | hwrite
    · rw [encrypt_dir_loop, hread]
      simp
    · cases hread : f.read with
      | error u => rw [encrypt_dir_loop, hread]; simp
      | ok c => rw [encrypt_dir_loop, hread]; simp [hwrite]
  | cons g front' ih =>
    cases hread : g.read with
    | error u =>
      rw [encrypt_dir_loop, hread] at hfront
      exact absurd (congrArg Prod.snd hfront) (by simp)
    | ok c =>
      cases hw : g.writeOk with
      | false =>
        rw [encrypt_dir_loop, hread] at hfront
        simp only [hw, if_false] at hfront
        exact absurd (congrArg Prod.snd hfront) (by simp)
      | true =>
        rw [encrypt_dir_loop, hread] at hfront
        simp only [hw, if_true] at hfront
        have houts : outs =
            (encryptDirOutName g.name,
              create_encrypted_file salt (enc.encrypt (rng (k + 1)) c)) ::
            (encrypt_dir_loop enc salt rng (k + 1) front').1 :=
          (congrArg Prod.fst hfront).symm
        have herr : (encrypt_dir_loop enc salt rng (k + 1) front').2 =
            none := congrArg Prod.snd hfront
        have hfront' : encrypt_dir_loop enc salt rng (k + 1) front' =
            ((encrypt_dir_loop enc salt rng (k + 1) front').1, none) := by
          rw [← herr]
        have hstep := ih (k + 1)
          (encrypt_dir_loop enc salt rng (k + 1) front').1 hfront'
        have harith : k + (g :: front').length = k + 1 + front'.length := by
          simp; omega
        rw [List.cons_append, encrypt_dir_loop, hread]
        simp only [hw, if_true, hstep, houts, harith]

/-- Fail-fast shape of the `decrypt_dir` loop. -/
theorem decrypt_dir_loop_append_fail (password : List Nat) (k : Nat)
    (front rest : List DirFile) (f : DirFile)
    (outs : List (String × List Nat))
    (hfront : decrypt_dir_loop password k front = (outs, none))
    (hf : decrypt_step password f = none) :
    decrypt_dir_loop password k (front ++ f :: rest) =
      (outs, some (f.name, k + front.length)) := by
  induction front generalizing k outs with
  | nil =>
    obtain rfl : outs = [] := by
      simpa [decrypt_dir_loop, Prod.ext_iff] using hfront.symm
    rw [List.nil_append, decrypt_dir_loop, hf]
    simp
  | cons g front' ih =>
    cases hstep : decrypt_step password g with
    | none =>
      rw [decrypt_dir_loop, hstep] at hfront
      exact absurd (congrArg Prod.snd hfront) (by simp)
    | some pt =>
      rw [decrypt_dir_loop, hstep] at hfront
      have houts : outs = (decryptOutName g.name, pt) ::
          (decrypt_dir_loop password (k + 1) front').1 :=
        (congrArg Prod.fst hfront).symm
      have herr : (decrypt_dir_loop password (k + 1) front').2 = none :=
        congrArg Prod.snd hfront
      have hfront' : decrypt_dir_loop password (k + 1) front' =
          ((decrypt_dir_loop password (k + 1) front').1, none) := by
        rw [← herr]
      have hrec := ih (k + 1)
        (decrypt_dir_loop password (k + 1) front').1 hfront'
      have harith : k + (g :: front').length = k + 1 + front'.length := by
        simp; omega
      rw [List.cons_append, decrypt_dir_loop, hstep]
      simp only [hrec, houts, harith]

/-! ## Claim theorems: batch processing -/

/-- C6: in one all-success directory-encrypt batch the salt is the
single pre-loop RNG draw `rng 0` and the key is derived from it once;
file `i`'s container is built with that shared salt and its own fresh
nonce, draw `rng (i + 1)` — a distinct draw per file, not a reused or
counter-derived nonce — and parsing the container recovers exactly the
shared salt with the nonce leading the payload. -/
theorem encrypt_dir_shared_salt_fresh_nonce (password : List Nat)
    (rng : Nat → List Nat) (files : List (String × List Nat)) (i : Nat)
    (name : String) (content : List Nat)
    (hf : files.get? i = some (name, content))
    (hs : (rng 0).length = 32) :
    (encrypt_dir password rng (okFiles files)).2 = none ∧
    (encrypt_dir password rng (okFiles files)).1.get? i =
      some (encryptDirOutName name,
        create_encrypted_file (rng 0)
          ((Encryptor.new_with_password password (rng 0)).encrypt
            (rng (i + 1)) content)) ∧
    parse_encrypted_file
        (create_encrypted_file (rng 0)
          ((Encryptor.new_with_password password (rng 0)).encrypt
            (rng (i + 1)) content)) =
      .ok (rng 0,
        rng (i + 1) ++
          aeadEncrypt (derive_key_from_password password (rng 0))
            (rng (i + 1)) content) := by
  refine ⟨?_, ?_, ?_⟩
  · exact encrypt_dir_loop_ok_err _ _ rng 0 files
  · have h := encrypt_dir_loop_ok_get
      (Encryptor.new_with_password password (rng 0)) (rng 0) rng 0 files
      i name content hf
    rw [show 0 + i + 1 = i + 1 by omega] at h
    exact h
  · exact parse_create _ _ hs

/-- Witness for C6: a two-file batch, inspected at the second file. -/
theorem encrypt_dir_shared_salt_fresh_nonce_witness :
    ((encrypt_dir [1]
        (fun k => if k = 0 then List.replicate 32 5 else List.replicate 12 k)
        (okFiles [("a.txt", [1]), ("b", [2, 3])])).2 = none ∧
    (encrypt_dir [1]
        (fun k => if k = 0 then List.replicate 32 5 else List.replicate 12 k)
        (okFiles [("a.txt", [1]), ("b", [2, 3])])).1.get? 1 =
      some (encryptDirOutName "b",
        create_encrypted_file
          ((fun k => if k = 0 then List.replicate 32 5 else
            List.replicate 12 k) 0)
          ((Encryptor.new_with_password [1]
              ((fun k => if k = 0 then List.replicate 32 5 else
                List.replicate 12 k) 0)).encrypt
            ((fun k => if k = 0 then List.replicate 32 5 else
              List.replicate 12 k) (1 + 1)) [2, 3])) ∧
    parse_encrypted_file
        (create_encrypted_file
          ((fun k => if k = 0 then List.replicate 32 5 else
            List.replicate 12 k) 0)
          ((Encryptor.new_with_password [1]
              ((fun k => if k = 0 then List.replicate 32 5 else
                List.replicate 12 k) 0)).encrypt
            ((fun k => if k = 0 then List.replicate 32 5 else
              List.replicate 12 k) (1 + 1)) [2, 3])) =
      .ok ((fun k => if k = 0 then List.replicate 32 5 else
          List.replicate 12 k) 0,
        (fun k => if k = 0 then List.replicate 32 5 else
          List.replicate 12 k) (1 + 1) ++
          aeadEncrypt
            (derive_key_from_password [1]
              ((fun k => if k = 0 then List.replicate 32 5 else
                List.replicate 12 k) 0))
            ((fun k => if k = 0 then List.replicate 32 5 else
              List.replicate 12 k) (1 + 1)) [2, 3])) :=
  encrypt_dir_shared_salt_fresh_nonce [1]
    (fun k => if k = 0 then List.replicate 32 5 else List.replicate 12 k)
    [("a.txt", [1]), ("b", [2, 3])] 1 "b" [2, 3] rfl (by decide)

/-- C7: directory decryption processes exactly the files whose final
extension is `encrypted` — dropping the others from the input changes
nothing, and on success the outputs are in one-to-one correspondence
with the selected files — and each selected file's plaintext comes from
a key derived from the single password and that file's own parsed salt. -/
theorem decrypt_dir_per_file_key (password : List Nat)
    (files : List DirFile)
    (hok : (decrypt_dir password files).2 = none) :
    decrypt_dir password files =
      decrypt_dir password (files.filter isEncryptedName) ∧
    (decrypt_dir password files).1.length =
      (files.filter isEncryptedName).length ∧
    ∀ i f data salt payload,
      (files.filter isEncryptedName).get? i = some f →
      f.read = .ok data →
      parse_encrypted_file data = .ok (salt, payload) →
      ∃ pt,
        (Encryptor.new_with_password password salt).decrypt payload =
          .ok pt ∧
        (decrypt_dir password files).1.get? i =
          some (decryptOutName f.name, pt) := by
  have hloop := decrypt_dir_loop_ok_get password 0
    (files.filter isEncryptedName) hok
  refine ⟨?_, hloop.1, fun i f data salt payload hfi hread hparse => ?_⟩
  · rw [decrypt_dir, decrypt_dir, List.filter_filter]
    simp
  · obtain ⟨pt, hstep, hget⟩ := hloop.2 i f hfi
    rcases hdec : (Encryptor.new_with_password password salt).decrypt
        payload with e | pt2
    · simp only [decrypt_step, hread, hparse, hdec] at hstep
      exact absurd hstep (by simp)
    · cases hw : f.writeOk
      · simp only [decrypt_step, hread, hparse, hdec, hw] at hstep
        exact absurd hstep (by simp)
      · simp only [decrypt_step, hread, hparse, hdec, hw, if_true] at hstep
        obtain rfl : pt2 = pt := by simpa using hstep
        exact ⟨pt2, rfl, hget⟩

set_option maxRecDepth 16384 in
/-- Witness for C7: a two-file directory where only the `.encrypted`
file is processed, decrypted with the key from its own embedded salt. -/
theorem decrypt_dir_per_file_key_witness :
    ∃ pt,
      (Encryptor.new_with_password [1, 2]
          (List.replicate 32 7)).decrypt
          ((Encryptor.new_with_password [1, 2]
            (List.replicate 32 7)).encrypt (List.replicate 12 9) [42]) =
        .ok pt ∧
      (decrypt_dir [1, 2]
          [⟨"skip.txt", .ok [], true⟩,
            ⟨"x.encrypted", .ok (encrypt_file [1, 2] (List.replicate 32 7)
              (List.replicate 12 9) [42]), true⟩]).1.get? 0 =
        some (decryptOutName "x.encrypted", pt) :=
  (decrypt_dir_per_file_key [1, 2]
      [⟨"skip.txt", .ok [], true⟩,
        ⟨"x.encrypted", .ok (encrypt_file [1, 2] (List.replicate 32 7)
          (List.replicate 12 9) [42]), true⟩] (by rfl)).2.2 0
    ⟨"x.encrypted", .ok (encrypt_file [1, 2] (List.replicate 32 7)
      (List.replicate 12 9) [42]), true⟩
    (encrypt_file [1, 2] (List.replicate 32 7) (List.replicate 12 9) [42])
    (List.replicate 32 7)
    ((Encryptor.new_with_password [1, 2]
      (List.replicate 32 7)).encrypt (List.replicate 12 9) [42])
    rfl rfl (parse_create (List.replicate 32 7) _ (by decide))

/-- C8: both batch loops stop at the first file whose step fails (for
encryption: read or write; for decryption: read, parse, decrypt or
write), keep the outputs already produced for the earlier files, and
report the failing file's name together with the number of files that
succeeded before it. -/
theorem batch_fail_fast (password : List Nat) (rng : Nat → List Nat)
    (front rest : List DirFile) (f : DirFile)
    (outs : List (String × List Nat)) :
    (encrypt_dir password rng front = (outs, none) →
      f.read = .error () ∨ f.writeOk = false →
      encrypt_dir password rng (front ++ f :: rest) =
        (outs, some (f.name, front.length))) ∧
    (∀ files : List DirFile,
      files.filter isEncryptedName = front ++ f :: rest →
      decrypt_dir_loop password 0 front = (outs, none) →
      decrypt_step password f = none →
      decrypt_dir password files = (outs, some (f.name, front.length))) := by
  constructor
  · intro h1 h2
    rw [encrypt_dir] at h1 ⊢
    have h := encrypt_dir_loop_append_fail
      (Encryptor.new_with_password password (rng 0)) (rng 0) rng 0
      front rest f outs h1 h2
    simpa using h
  · intro files hfilter hfront hstep
    rw [decrypt_dir, hfilter]
    have h := decrypt_dir_loop_append_fail password 0 front rest f outs
      hfront hstep
    simpa using h

/-- Witness for C8: single-file batches whose only file fails to read
stop immediately with that file named and zero successes. -/
theorem batch_fail_fast_witness :
    encrypt_dir [1] (fun _ => []) [⟨"bad", .error (), true⟩] =
      ([], some ("bad", 0)) ∧
    decrypt_dir [1] [⟨"bad.encrypted", .error (), true⟩] =
      ([], some ("bad.encrypted", 0)) := by
  constructor
  · exact (batch_fail_fast [1] (fun _ => []) [] []
      ⟨"bad", .error (), true⟩ []).1 rfl (Or.inl rfl)
  · exact (batch_fail_fast [1] (fun _ => []) [] []
      ⟨"bad.encrypted", .error (), true⟩ []).2
      [⟨"bad.encrypted", .error (), true⟩] rfl rfl rfl

end FileEncryption
